import Mathlib

set_option autoImplicit false

namespace SlimSearch

section JsMapDefs

variable {K : Type} [DecidableEq K] {V : Type}

/-- `Map.get`: value of the first entry with the given key, if any. -/
def getEntry : List (K × V) → K → Option V
  | [], _ => none
  | (k', v) :: rest, k => if k' = k then some v else getEntry rest k

/-- `Map.set`: update the entry in place if the key is present, else append. -/
def setEntry : List (K × V) → K → V → List (K × V)
  | [], k, v => [(k, v)]
  | (k', v') :: rest, k, v =>
      if k' = k then (k', v) :: rest else (k', v') :: setEntry rest k v

/-- `Map.delete`: remove the entry with the given key. -/
def delEntry : List (K × V) → K → List (K × V)
  | [], _ => []
  | (k', v) :: rest, k =>
      if k' = k then delEntry rest k else (k', v) :: delEntry rest k

/-- `Map.has`. -/
def hasEntry (m : List (K × V)) (k : K) : Bool :=
  (getEntry m k).isSome

/-- The keys of the map are pairwise distinct (true of every JS `Map`). -/
def NodupKeys (m : List (K × V)) : Prop :=
  (m.map Prod.fst).Nodup

instance (m : List (K × V)) : Decidable (NodupKeys m) := by
  unfold NodupKeys; infer_instance

end JsMapDefs

/-- `Map<documentId, freq>` — the innermost posting map. -/
abbrev DocPostings := List (Nat × Nat)

/-- `FieldTermData = Map<fieldId, DocumentTermFrequencies>`. -/
abbrev FieldTermData := List (Nat × DocPostings)

/-- The term dictionary `_index : SearchableMap<FieldTermData>`. -/
abbrev TermDict := List (String × FieldTermData)

/-- Frequency recorded for `(term, fieldId, documentId)`; 0 when absent. -/
def freqLookup (dict : TermDict) (term : String) (fieldId documentId : Nat) : Nat :=
  match getEntry dict term with
  | none => 0
  | some indexData =>
      match getEntry indexData fieldId with
      | none => 0
      | some fieldIndex => (getEntry fieldIndex documentId).getD 0

/-- `addTerm` of `src/term.ts`: `fetch` the term's `FieldTermData`
(installing an empty map when absent), then create the field entry with
frequency 1 for the document, or increment the existing count. -/
def addTerm (dict : TermDict) (fieldId documentId : Nat) (term : String) : TermDict :=
  let indexData := (getEntry dict term).getD []
  let indexData' :=
    match getEntry indexData fieldId with
    | none => setEntry indexData fieldId [(documentId, 1)]
    | some fieldIndex =>
        let docs := getEntry fieldIndex documentId
        setEntry indexData fieldId (setEntry fieldIndex documentId (docs.getD 0 + 1))
  setEntry dict term indexData'

/-- `removeTerm` of `src/term.ts`. The returned `Bool` is `true` exactly
when `warnDocumentChanged` was called (the `DocumentChanged` warning was
sent through the logger). When the term is present, the decrement /
delete cascade runs and finally the term is dropped from the dictionary
if its `FieldTermData` became empty. -/
def removeTerm (dict : TermDict) (fieldId documentId : Nat) (term : String) :
    TermDict × Bool :=
  if ¬ hasEntry dict term then (dict, true)
  else
    let indexData := (getEntry dict term).getD []
    let res : FieldTermData × Bool :=
      match getEntry indexData fieldId with
      | none => (indexData, true)
      | some fieldIndex =>
          match getEntry fieldIndex documentId with
          | none => (indexData, true)
          | some amount =>
              if amount ≤ 1 then
                if fieldIndex.length ≤ 1 then (delEntry indexData fieldId, false)
                else (setEntry indexData fieldId (delEntry fieldIndex documentId), false)
              else (setEntry indexData fieldId (setEntry fieldIndex documentId (amount - 1)), false)
    let dict' := setEntry dict term res.1
    if ((getEntry dict' term).getD []).length = 0 then (delEntry dict' term, res.2)
    else (dict', res.2)

/-- Well-formed innermost posting map: non-empty, unique document keys,
every recorded frequency positive. -/
def WFPostings (fi : DocPostings) : Prop :=
  fi ≠ [] ∧ NodupKeys fi ∧ ∀ r ∈ fi, 0 < r.2

/-- Field map with unique field keys whose posting maps are well-formed
(but possibly empty as a whole — the intermediate state inside
`removeTerm` before the final emptiness check). -/
def WFFieldDataCore (data : FieldTermData) : Prop :=
  NodupKeys data ∧ ∀ q ∈ data, WFPostings q.2

/-- Well-formed `FieldTermData`: non-empty and structurally well-formed. -/
def WFFieldData (data : FieldTermData) : Prop :=
  data ≠ [] ∧ WFFieldDataCore data

/-- Well-formedness of the dictionary: unique keys at every level, no
empty `FieldTermData` or `DocPostings` layer, every frequency positive. -/
def WFDict (dict : TermDict) : Prop :=
  NodupKeys dict ∧ ∀ p ∈ dict, WFFieldData p.2

instance (fi : DocPostings) : Decidable (WFPostings fi) := by
  unfold WFPostings; infer_instance

instance (data : FieldTermData) : Decidable (WFFieldDataCore data) := by
  unfold WFFieldDataCore; infer_instance

instance (data : FieldTermData) : Decidable (WFFieldData data) := by
  unfold WFFieldData; infer_instance

instance (dict : TermDict) : Decidable (WFDict dict) := by
  unfold WFDict; infer_instance

/-- Index states reachable from the empty dictionary by `addTerm` and
`removeTerm` operations. -/
inductive Reachable : TermDict → Prop
  | empty : Reachable []
  | add (dict : TermDict) (fieldId documentId : Nat) (term : String) :
      Reachable dict → Reachable (addTerm dict fieldId documentId term)
  | remove (dict : TermDict) (fieldId documentId : Nat) (term : String) :
      Reachable dict → Reachable (removeTerm dict fieldId documentId term).1

/-- Apply `removeTerm` for the same triple the given number of times. -/
def iterRemove (dict : TermDict) (fieldId documentId : Nat) (term : String) :
    Nat → TermDict
  | 0 => dict
  | n + 1 => iterRemove (removeTerm dict fieldId documentId term).1 fieldId documentId term n

/-- All `(term, fieldId, freq)` postings recorded for a document, read
off the dictionary. -/
def docEntries : TermDict → Nat → List (String × Nat × Nat)
  | [], _ => []
  | (t, data) :: rest, d =>
      (data.filterMap fun q => (getEntry q.2 d).map fun c => (t, q.1, c)) ++
        docEntries rest d

/-- Remove every posting recorded for a document: for each
`(term, fieldId)` posting of the document, call `removeTerm` once per
recorded occurrence (the way `remove(doc)` re-derives and subtracts the
document's terms). -/
def removeDoc (dict : TermDict) (documentId : Nat) : TermDict :=
  (docEntries dict documentId).foldl
    (fun dd e => iterRemove dd e.2.1 documentId e.1
      (freqLookup dd e.1 e.2.1 documentId)) dict

/-- Accumulated raw result for one document: score, the matched query
terms, and the match map from matched dictionary term to field names. -/
structure RawResult where
  score : ℚ
  terms : List String
  matchData : List (String × List String)
deriving DecidableEq

/-- The result record built by `search`: the external `id`, the final
`score`, `terms` (the keys of `match`), the match map, and the stored
fields merged in by `Object.assign`. The internal `shortId` the entry
came from is carried alongside, as the spec's tie-breaking order is
stated in terms of it. -/
structure SearchResult where
  shortId : Nat
  id : Nat
  score : ℚ
  terms : List String
  matchData : List (String × List String)
  stored : List (String × String)
deriving DecidableEq

/-- The pieces of `SearchIndex` state that `search` reads:
`_documentIds`, `_storedFields`, and — to express C10 — the `filter`
configured in the constructor's `searchOptions` default. -/
structure SearchView where
  documentIds : List (Nat × Nat)
  storedFields : List (Nat × List (String × String))
  defaultFilter : Option (SearchResult → Bool)

/-- The per-call `SearchOptions` argument, reduced to the `filter`
component which is the only one `search` itself consults after
`executeQuery` returns. -/
structure CallOptions where
  filter : Option (SearchResult → Bool)

/-- Modelled from the spec: the comparator `byScore` of `utils.ts` is not
among the provided sources; per the spec the output ordering is by
descending score with ties broken by ascending shortId. -/
def byScore (a b : SearchResult) : Prop :=
  b.score < a.score ∨ (a.score = b.score ∧ a.shortId ≤ b.shortId)

instance : DecidableRel byScore := fun a b => by
  unfold byScore; infer_instance

instance : IsTotal SearchResult byScore := by
  constructor
  intro a b
  rcases lt_trichotomy a.score b.score with h | h | h
  · right; left; exact h
  · rcases Nat.le_total a.shortId b.shortId with h' | h'
    · left; right; exact ⟨h, h'⟩
    · right; right; exact ⟨h.symm, h'⟩
  · left; left; exact h

instance : IsTrans SearchResult byScore := by
  constructor
  rintro a b c (hab | ⟨hab, hab'⟩) (hbc | ⟨hbc, hbc'⟩)
  · left; exact hbc.trans hab
  · left; rw [← hbc]; exact hab
  · left; rw [hab]; exact hbc
  · right; exact ⟨hab.trans hbc, hab'.trans hbc'⟩

/-- The result record `search` assembles for one combined entry. -/
def buildResult (view : SearchView) (p : Nat × RawResult) : SearchResult :=
  { shortId := p.1
    id := (getEntry view.documentIds p.1).getD 0
    score := p.2.score * (p.2.terms.length : ℚ)
    terms := p.2.matchData.map Prod.fst
    matchData := p.2.matchData
    stored := (getEntry view.storedFields p.1).getD [] }

/-- `search` of `search.ts` from the point where `executeQuery` has
produced `combined`: build each result with `score * quality`
(`quality = terms.length`), keep it unless the call's own filter rejects
it, and sort with `byScore`. -/
def search (view : SearchView) (combined : List (Nat × RawResult))
    (opts : CallOptions) : List SearchResult :=
  (combined.filterMap fun p =>
    match opts.filter with
    | none => some (buildResult view p)
    | some flt => if flt (buildResult view p) then some (buildResult view p) else none
  ).insertionSort byScore

structure SearchIndexState where
  index : TermDict
  documentCount : Nat
  nextId : Nat
  documentIds : List (Nat × Nat)
  fieldIds : List (String × Nat)
  fieldLength : List (Nat × List Nat)
  avgFieldLength : List ℚ
  storedFields : List (Nat × List (String × String))
  dirtCount : Nat
deriving DecidableEq

/-- The record returned by `toJSON` (`IndexObject` of `typings.ts`):
exactly the fields `documentCount`, `nextId`, `documentIds`, `fieldIds`,
`fieldLength`, `averageFieldLength`, `storedFields`, `dirtCount`,
`index` and `version`. -/
structure IndexObject where
  documentCount : Nat
  nextId : Nat
  documentIds : List (Nat × Nat)
  fieldIds : List (String × Nat)
  fieldLength : List (Nat × List Nat)
  averageFieldLength : List ℚ
  storedFields : List (Nat × List (String × String))
  dirtCount : Nat
  index : TermDict
  version : Nat
deriving DecidableEq

/-- `SearchIndex.toJSON`: serialize the term dictionary term by term
(per term, field by field) and emit the state fields with `version: 2`. -/
def toJSON (s : SearchIndexState) : IndexObject :=
  { documentCount := s.documentCount
    nextId := s.nextId
    documentIds := s.documentIds
    fieldIds := s.fieldIds
    fieldLength := s.fieldLength
    averageFieldLength := s.avgFieldLength
    storedFields := s.storedFields
    dirtCount := s.dirtCount
    index := s.index.map fun p => (p.1, p.2.map fun q => (q.1, q.2))
    version := 2 }

/-- Frequency lookup in the serialized `index` field. -/
def serializedFreq (obj : IndexObject) (term : String) (fieldId documentId : Nat) : Nat :=
  freqLookup obj.index term fieldId documentId

/-- Modelled from the spec: `loadJSON` / `loadJSONIndex` is not among the
provided sources. Per spec §6, loading a version-2 record rebuilds the
index state from its fields, and an unsupported `version` fails with
IncompatibleVersion (the `none` outcome here; the version-1
compatibility path is not involved in round-tripping a version-2 dump). -/
def loadJSON (obj : IndexObject) : Option SearchIndexState :=
  if obj.version = 2 then
    some { index := obj.index
           documentCount := obj.documentCount
           nextId := obj.nextId
           documentIds := obj.documentIds
           fieldIds := obj.fieldIds
           fieldLength := obj.fieldLength
           avgFieldLength := obj.averageFieldLength
           storedFields := obj.storedFields
           dirtCount := obj.dirtCount }
  else none

/-- `search` reading its view from a full index state, with the
constructor-default filter `df`. -/
def searchState (s : SearchIndexState) (df : Option (SearchResult → Bool))
    (combined : List (Nat × RawResult)) (opts : CallOptions) : List SearchResult :=
  search ⟨s.documentIds, s.storedFields, df⟩ combined opts

/-- Search over the outcome of loading a serialized index (no results
when loading failed). -/
def searchLoaded (ls : Option SearchIndexState) (df : Option (SearchResult → Bool))
    (combined : List (Nat × RawResult)) (opts : CallOptions) : List SearchResult :=
  match ls with
  | none => []
  | some s => searchState s df combined opts

/-- BM25 parameters (`BM25Params` of `typings.ts`). -/
structure BM25Params where
  k : ℚ
  b : ℚ
  d : ℚ
deriving DecidableEq

/-- The construction options the validation claim is about: `fields`
(`none` when the option is missing) and the BM25 parameters carried by
`searchOptions.bm25`. -/
structure CreateOptions where
  fields : Option (List String)
  bm25 : Option BM25Params
deriving DecidableEq

/-- The `SearchIndex` constructor: the sole validation is
`if (!options?.fields) throw ...`; on success the fresh state is created
with `addFields` assigning field ids in declaration order. -/
def createIndex (opts : CreateOptions) : Except String SearchIndexState :=
  match opts.fields with
  | none => Except.error "SlimSearch: option \"fields\" must be provided"
  | some fields =>
      Except.ok
        { index := []
          documentCount := 0
          nextId := 0
          documentIds := []
          fieldIds := fields.enum.map fun p => (p.2, p.1)
          fieldLength := []
          avgFieldLength := []
          storedFields := []
          dirtCount := 0 }

/-- The `dirtFactor` getter:
`this._dirtCount / (1 + this._documentCount + this._dirtCount)`. -/
def dirtFactor (s : SearchIndexState) : ℚ :=
  (s.dirtCount : ℚ) / (1 + (s.documentCount : ℚ) + (s.dirtCount : ℚ))

section JsMapLemmas

variable {K : Type} [DecidableEq K] {V : Type}

@[simp]
theorem getEntry_nil (k : K) : getEntry ([] : List (K × V)) k = none := rfl

@[simp]
theorem getEntry_setEntry_self (m : List (K × V)) (k : K) (v : V) :
    getEntry (setEntry m k v) k = some v := by
  induction m with
  | nil => simp [setEntry, getEntry]
  | cons p rest ih =>
      obtain ⟨k', v'⟩ := p
      by_cases h : k' = k <;> simp [setEntry, getEntry, h, ih]

theorem getEntry_setEntry_ne (m : List (K × V)) (k k' : K) (v : V) (h : k ≠ k') :
    getEntry (setEntry m k v) k' = getEntry m k' := by
  induction m with
  | nil => simp [setEntry, getEntry, h]
  | cons p rest ih =>
      obtain ⟨k₀, v₀⟩ := p
      by_cases h₀ : k₀ = k
      · subst h₀; simp [setEntry, getEntry, h, ih]
      · simp only [setEntry, if_neg h₀, getEntry]
        by_cases h₁ : k₀ = k' <;> simp [h₁, ih]

@[simp]
theorem getEntry_delEntry_self (m : List (K × V)) (k : K) :
    getEntry (delEntry m k) k = none := by
  induction m with
  | nil => simp [delEntry]
  | cons p rest ih =>
      obtain ⟨k', v⟩ := p
      by_cases h : k' = k <;> simp [delEntry, getEntry, h, ih]

theorem getEntry_delEntry_ne (m : List (K × V)) (k k' : K) (h : k ≠ k') :
    getEntry (delEntry m k) k' = getEntry m k' := by
  induction m with
  | nil => simp [delEntry]
  | cons p rest ih =>
      obtain ⟨k₀, v₀⟩ := p
      by_cases h₀ : k₀ = k
      · subst h₀; simp [delEntry, getEntry, h, ih]
      · simp only [delEntry, if_neg h₀, getEntry]
        by_cases h₁ : k₀ = k' <;> simp [h₁, ih]

/-- Re-storing the value a key already maps to leaves the map unchanged. -/
theorem setEntry_getEntry_self (m : List (K × V)) (k : K) (v : V)
    (h : getEntry m k = some v) : setEntry m k v = m := by
  induction m with
  | nil => simp [getEntry] at h
  | cons p rest ih =>
      obtain ⟨k', v'⟩ := p
      by_cases h₀ : k' = k
      · simp only [getEntry, if_pos h₀] at h
        obtain rfl : v' = v := Option.some.inj h
        simp [setEntry, h₀]
      · simp only [getEntry, if_neg h₀] at h
        simp [setEntry, h₀, ih h]

theorem mem_setEntry {m : List (K × V)} {k : K} {v : V} {p : K × V}
    (hp : p ∈ setEntry m k v) : (p.1 = k ∧ p.2 = v) ∨ p ∈ m := by
  induction m with
  | nil => simp [setEntry] at hp; simp [hp]
  | cons q rest ih =>
      obtain ⟨k', v'⟩ := q
      by_cases h₀ : k' = k
      · simp only [setEntry, if_pos h₀, List.mem_cons] at hp
        rcases hp with h | h
        · left; simp [h, h₀]
        · right; simp [h]
      · simp only [setEntry, if_neg h₀, List.mem_cons] at hp
        rcases hp with h | h
        · right; simp [h]
        · rcases ih h with h' | h'
          · left; exact h'
          · right; simp [h']

theorem mem_delEntry {m : List (K × V)} {k : K} {p : K × V}
    (hp : p ∈ delEntry m k) : p ∈ m ∧ p.1 ≠ k := by
  induction m with
  | nil => simp [delEntry] at hp
  | cons q rest ih =>
      obtain ⟨k', v'⟩ := q
      by_cases h₀ : k' = k
      · simp only [delEntry, if_pos h₀] at hp
        exact ⟨List.mem_cons_of_mem _ (ih hp).1, (ih hp).2⟩
      · simp only [delEntry, if_neg h₀, List.mem_cons] at hp
        rcases hp with h | h
        · refine ⟨by simp [h], ?_⟩
          rw [h]; exact h₀
        · exact ⟨List.mem_cons_of_mem _ (ih h).1, (ih h).2⟩

theorem keys_setEntry (m : List (K × V)) (k : K) (v : V) {k' : K}
    (h : k' ∈ (setEntry m k v).map Prod.fst) :
    k' = k ∨ k' ∈ m.map Prod.fst := by
  simp only [List.mem_map] at h ⊢
  obtain ⟨p, hp, hk⟩ := h
  rcases mem_setEntry hp with h' | h'
  · left; rw [← hk]; exact h'.1
  · right; exact ⟨p, h', hk⟩

theorem setEntry_ne_nil (m : List (K × V)) (k : K) (v : V) :
    setEntry m k v ≠ [] := by
  match m with
  | [] => simp [setEntry]
  | (k', v') :: rest =>
      by_cases h₀ : k' = k <;> simp [setEntry, h₀]

/-- Deleting an absent key is a no-op. -/
theorem delEntry_of_not_mem {m : List (K × V)} {k : K}
    (h : k ∉ m.map Prod.fst) : delEntry m k = m := by
  induction m with
  | nil => simp [delEntry]
  | cons q rest ih =>
      obtain ⟨k', v'⟩ := q
      simp only [List.map_cons, List.mem_cons] at h
      push_neg at h
      have hne : ¬ k' = k := fun hh => h.1 hh.symm
      simp [delEntry, hne, ih h.2]

/-- Under unique keys, deleting a present key shrinks the map by one. -/
theorem length_delEntry {m : List (K × V)} {k : K} {v : V}
    (hnd : NodupKeys m) (h : getEntry m k = some v) :
    (delEntry m k).length + 1 = m.length := by
  induction m with
  | nil => simp [getEntry] at h
  | cons q rest ih =>
      obtain ⟨k', v'⟩ := q
      simp only [NodupKeys, List.map_cons, List.nodup_cons] at hnd
      by_cases h₀ : k' = k
      · subst h₀
        rw [delEntry, if_pos rfl, delEntry_of_not_mem hnd.1]
        simp
      · simp only [getEntry, if_neg h₀] at h
        simp [delEntry, h₀, ih hnd.2 h]

theorem nodupKeys_setEntry {m : List (K × V)} (h : NodupKeys m) (k : K) (v : V) :
    NodupKeys (setEntry m k v) := by
  induction m with
  | nil => simp [setEntry, NodupKeys]
  | cons p rest ih =>
      obtain ⟨k', v'⟩ := p
      simp only [NodupKeys, List.map_cons, List.nodup_cons] at h
      by_cases h₀ : k' = k
      · simpa [NodupKeys, setEntry, h₀] using h
      · have hrest := ih h.2
        simp only [NodupKeys, setEntry, if_neg h₀, List.map_cons, List.nodup_cons]
        refine ⟨fun hk => ?_, hrest⟩
        rcases keys_setEntry rest k v hk with h₁ | h₁
        · exact h₀ h₁
        · exact h.1 h₁

theorem nodupKeys_delEntry {m : List (K × V)} (h : NodupKeys m) (k : K) :
    NodupKeys (delEntry m k) := by
  induction m with
  | nil => simp [delEntry, NodupKeys]
  | cons p rest ih =>
      obtain ⟨k', v'⟩ := p
      simp only [NodupKeys, List.map_cons, List.nodup_cons] at h
      by_cases h₀ : k' = k
      · simp only [delEntry, if_pos h₀]
        exact ih h.2
      · simp only [NodupKeys, delEntry, if_neg h₀, List.map_cons, List.nodup_cons]
        refine ⟨fun hk => ?_, ih h.2⟩
        simp only [List.mem_map] at hk
        obtain ⟨q, hq, hq'⟩ := hk
        exact h.1 (by simp only [List.mem_map]; exact ⟨q, (mem_delEntry hq).1, hq'⟩)

/-- On a map with at most one entry, a successful lookup pins down the map. -/
theorem eq_singleton_of_getEntry {m : List (K × V)} {k : K} {v : V}
    (h : getEntry m k = some v) (hlen : m.length ≤ 1) : m = [(k, v)] := by
  match m with
  | [] => simp [getEntry] at h
  | [(k', v')] =>
      by_cases h₀ : k' = k
      · simp only [getEntry, if_pos h₀, Option.some.injEq] at h
        simp [h₀, h]
      · simp [getEntry, h₀, getEntry_nil] at h
  | p :: q :: rest => simp at hlen

theorem getEntry_isSome_of_mem {m : List (K × V)} {p : K × V} (hp : p ∈ m) :
    (getEntry m p.1).isSome := by
  induction m with
  | nil => simp at hp
  | cons q rest ih =>
      obtain ⟨k', v'⟩ := q
      rcases List.mem_cons.1 hp with h | h
      · simp [h, getEntry]
      · by_cases h₀ : k' = p.1 <;> simp [getEntry, h₀, ih h]

theorem getEntry_eq_none_iff {m : List (K × V)} {k : K} :
    getEntry m k = none ↔ k ∉ m.map Prod.fst := by
  induction m with
  | nil => simp [getEntry]
  | cons q rest ih =>
      obtain ⟨k', v'⟩ := q
      by_cases h₀ : k' = k
      · simp [getEntry, h₀]
      · simp only [getEntry, if_neg h₀, List.map_cons, List.mem_cons, ih]
        constructor
        · rintro h (h₁ | h₁)
          · exact h₀ h₁.symm
          · exact h h₁
        · exact fun h h₁ => h (Or.inr h₁)

theorem setEntry_setEntry (m : List (K × V)) (k : K) (v v' : V) :
    setEntry (setEntry m k v) k v' = setEntry m k v' := by
  induction m with
  | nil => simp [setEntry]
  | cons q rest ih =>
      obtain ⟨k₀, v₀⟩ := q
      by_cases h₀ : k₀ = k <;> simp [setEntry, h₀, ih]

theorem delEntry_setEntry (m : List (K × V)) (k : K) (v : V) :
    delEntry (setEntry m k v) k = delEntry m k := by
  induction m with
  | nil => simp [setEntry, delEntry]
  | cons q rest ih =>
      obtain ⟨k₀, v₀⟩ := q
      by_cases h₀ : k₀ = k <;> simp [setEntry, delEntry, h₀, ih]

theorem length_setEntry_not_mem {m : List (K × V)} {k : K}
    (h : getEntry m k = none) (v : V) :
    (setEntry m k v).length = m.length + 1 := by
  induction m with
  | nil => simp [setEntry]
  | cons q rest ih =>
      obtain ⟨k₀, v₀⟩ := q
      by_cases h₀ : k₀ = k
      · simp [getEntry, h₀] at h
      · simp only [getEntry, if_neg h₀] at h
        simp [setEntry, h₀, ih h]

theorem getEntry_of_mem_nodup {m : List (K × V)} (hnd : NodupKeys m)
    {k : K} {v : V} (h : (k, v) ∈ m) : getEntry m k = some v := by
  induction m with
  | nil => simp at h
  | cons q rest ih =>
      obtain ⟨k₀, v₀⟩ := q
      simp only [NodupKeys, List.map_cons, List.nodup_cons] at hnd
      rcases List.mem_cons.1 h with h₁ | h₁
      · obtain ⟨hk, hv⟩ := Prod.mk.injEq .. ▸ h₁.symm
        simp [getEntry, hk, hv]
      · have hkne : ¬ k₀ = k := by
          intro hh
          exact hnd.1 (by simpa [hh] using List.mem_map_of_mem Prod.fst h₁)
        simp [getEntry, hkne, ih hnd.2 h₁]

theorem mem_of_getEntry {m : List (K × V)} {k : K} {v : V}
    (h : getEntry m k = some v) : (k, v) ∈ m := by
  induction m with
  | nil => simp [getEntry] at h
  | cons q rest ih =>
      obtain ⟨k', v'⟩ := q
      by_cases h₀ : k' = k
      · simp only [getEntry, if_pos h₀, Option.some.injEq] at h
        simp [← h₀, h]
      · simp only [getEntry, if_neg h₀] at h
        exact List.mem_cons_of_mem _ (ih h)

end JsMapLemmas

theorem addTerm_eq_new_term {dict : TermDict} {term : String}
    (hget : getEntry dict term = none) (fieldId documentId : Nat) :
    addTerm dict fieldId documentId term =
      setEntry dict term [(fieldId, [(documentId, 1)])] := by
  simp [addTerm, hget, getEntry, setEntry]

theorem addTerm_eq_new_field {dict : TermDict} {term : String} {data : FieldTermData}
    (hget : getEntry dict term = some data) {fieldId : Nat}
    (hgf : getEntry data fieldId = none) (documentId : Nat) :
    addTerm dict fieldId documentId term =
      setEntry dict term (setEntry data fieldId [(documentId, 1)]) := by
  simp [addTerm, hget, hgf]

theorem addTerm_eq_bump {dict : TermDict} {term : String} {data : FieldTermData}
    (hget : getEntry dict term = some data) {fieldId : Nat} {fi : DocPostings}
    (hgf : getEntry data fieldId = some fi) (documentId : Nat) :
    addTerm dict fieldId documentId term =
      setEntry dict term
        (setEntry data fieldId
          (setEntry fi documentId ((getEntry fi documentId).getD 0 + 1))) := by
  simp [addTerm, hget, hgf]

theorem removeTerm_eq_absent {dict : TermDict} {term : String}
    (hget : getEntry dict term = none) (fieldId documentId : Nat) :
    removeTerm dict fieldId documentId term = (dict, true) := by
  simp [removeTerm, hasEntry, hget]

theorem removeTerm_eq_field_missing {dict : TermDict} {term : String}
    {data : FieldTermData} (hget : getEntry dict term = some data)
    (hne : data ≠ []) {fieldId : Nat} (hgf : getEntry data fieldId = none)
    (documentId : Nat) :
    removeTerm dict fieldId documentId term = (dict, true) := by
  have hlen : data.length ≠ 0 := fun h => hne (List.length_eq_zero.1 h)
  simp [removeTerm, hasEntry, hget, hgf, setEntry_getEntry_self dict term data hget, hlen]

theorem removeTerm_eq_doc_missing {dict : TermDict} {term : String}
    {data : FieldTermData} (hget : getEntry dict term = some data)
    (hne : data ≠ []) {fieldId : Nat} {fi : DocPostings}
    (hgf : getEntry data fieldId = some fi) {documentId : Nat}
    (hgd : getEntry fi documentId = none) :
    removeTerm dict fieldId documentId term = (dict, true) := by
  have hlen : data.length ≠ 0 := fun h => hne (List.length_eq_zero.1 h)
  simp [removeTerm, hasEntry, hget, hgf, hgd,
    setEntry_getEntry_self dict term data hget, hlen]

theorem removeTerm_eq_dec {dict : TermDict} {term : String}
    {data : FieldTermData} (hget : getEntry dict term = some data)
    {fieldId : Nat} {fi : DocPostings}
    (hgf : getEntry data fieldId = some fi) {documentId : Nat} {amount : Nat}
    (hgd : getEntry fi documentId = some amount) (h2 : ¬ amount ≤ 1) :
    removeTerm dict fieldId documentId term =
      (setEntry dict term (setEntry data fieldId (setEntry fi documentId (amount - 1))),
        false) := by
  have hs := setEntry_ne_nil data fieldId (setEntry fi documentId (amount - 1))
  have hlen : (setEntry data fieldId (setEntry fi documentId (amount - 1))).length ≠ 0 :=
    fun h => hs (List.length_eq_zero.1 h)
  simp [removeTerm, hasEntry, hget, hgf, hgd, h2, hlen]

theorem removeTerm_eq_del_doc {dict : TermDict} {term : String}
    {data : FieldTermData} (hget : getEntry dict term = some data)
    {fieldId : Nat} {fi : DocPostings}
    (hgf : getEntry data fieldId = some fi) {documentId : Nat} {amount : Nat}
    (hgd : getEntry fi documentId = some amount) (h1 : amount ≤ 1)
    (hbig : ¬ fi.length ≤ 1) :
    removeTerm dict fieldId documentId term =
      (setEntry dict term (setEntry data fieldId (delEntry fi documentId)), false) := by
  have hs := setEntry_ne_nil data fieldId (delEntry fi documentId)
  have hlen : (setEntry data fieldId (delEntry fi documentId)).length ≠ 0 :=
    fun h => hs (List.length_eq_zero.1 h)
  simp [removeTerm, hasEntry, hget, hgf, hgd, h1, hbig, hlen]

theorem removeTerm_eq_del_field {dict : TermDict} {term : String}
    {data : FieldTermData} (hget : getEntry dict term = some data)
    {fieldId : Nat} {fi : DocPostings}
    (hgf : getEntry data fieldId = some fi) {documentId : Nat} {amount : Nat}
    (hgd : getEntry fi documentId = some amount) (h1 : amount ≤ 1)
    (hsmall : fi.length ≤ 1) :
    removeTerm dict fieldId documentId term =
      (if (delEntry data fieldId).length = 0 then
        (delEntry (setEntry dict term (delEntry data fieldId)) term, false)
      else (setEntry dict term (delEntry data fieldId), false)) := by
  have hkey : getEntry (setEntry dict term (delEntry data fieldId)) term =
      some (delEntry data fieldId) := getEntry_setEntry_self _ _ _
  simp [removeTerm, hasEntry, hget, hgf, hgd, h1, hsmall, hkey]

theorem wfFieldData_of_get {dict : TermDict} (hwf : WFDict dict) {term : String}
    {data : FieldTermData} (hget : getEntry dict term = some data) :
    WFFieldData data :=
  hwf.2 (term, data) (mem_of_getEntry hget)

theorem wfPostings_of_get {data : FieldTermData} (hd : WFFieldDataCore data)
    {fieldId : Nat} {fi : DocPostings} (hgf : getEntry data fieldId = some fi) :
    WFPostings fi :=
  hd.2 (fieldId, fi) (mem_of_getEntry hgf)

theorem wfDict_setEntry {dict : TermDict} (hwf : WFDict dict) (term : String)
    {data : FieldTermData} (hd : WFFieldData data) :
    WFDict (setEntry dict term data) := by
  refine ⟨nodupKeys_setEntry hwf.1 _ _, fun p hp => ?_⟩
  rcases mem_setEntry hp with h | h
  · rw [h.2]; exact hd
  · exact hwf.2 p h

theorem wfDict_delEntry_setEntry {dict : TermDict} (hwf : WFDict dict)
    (term : String) (data : FieldTermData) :
    WFDict (delEntry (setEntry dict term data) term) := by
  refine ⟨nodupKeys_delEntry (nodupKeys_setEntry hwf.1 term data) term, fun p hp => ?_⟩
  obtain ⟨hp', hne⟩ := mem_delEntry hp
  rcases mem_setEntry hp' with h | h
  · exact absurd h.1 hne
  · exact hwf.2 p h

theorem wfFieldData_setEntry_postings {data : FieldTermData}
    (hd : WFFieldDataCore data) (fieldId : Nat) {fi : DocPostings}
    (hfi : WFPostings fi) : WFFieldData (setEntry data fieldId fi) := by
  refine ⟨setEntry_ne_nil _ _ _, nodupKeys_setEntry hd.1 _ _, fun q hq => ?_⟩
  rcases mem_setEntry hq with h | h
  · rw [h.2]; exact hfi
  · exact hd.2 q h

theorem wfPostings_singleton (documentId : Nat) : WFPostings [(documentId, 1)] := by
  refine ⟨by simp, by simp [NodupKeys], fun r hr => ?_⟩
  simp only [List.mem_singleton] at hr
  simp [hr]

theorem wfPostings_setEntry_pos {fi : DocPostings} (hfi : WFPostings fi)
    (documentId : Nat) {c : Nat} (hc : 0 < c) :
    WFPostings (setEntry fi documentId c) := by
  refine ⟨setEntry_ne_nil _ _ _, nodupKeys_setEntry hfi.2.1 _ _, fun r hr => ?_⟩
  rcases mem_setEntry hr with h | h
  · rw [h.2]; exact hc
  · exact hfi.2.2 r h

/-- `addTerm` preserves well-formedness of the dictionary. -/
theorem addTerm_WF {dict : TermDict} (hwf : WFDict dict)
    (fieldId documentId : Nat) (term : String) :
    WFDict (addTerm dict fieldId documentId term) := by
  cases hget : getEntry dict term with
  | none =>
      rw [addTerm_eq_new_term hget]
      refine wfDict_setEntry hwf term ⟨by simp, by simp [NodupKeys], fun q hq => ?_⟩
      simp only [List.mem_singleton] at hq
      rw [hq]
      exact wfPostings_singleton documentId
  | some data =>
      have hd := wfFieldData_of_get hwf hget
      cases hgf : getEntry data fieldId with
      | none =>
          rw [addTerm_eq_new_field hget hgf]
          exact wfDict_setEntry hwf term
            (wfFieldData_setEntry_postings hd.2 fieldId (wfPostings_singleton documentId))
      | some fi =>
          have hfi := wfPostings_of_get hd.2 hgf
          rw [addTerm_eq_bump hget hgf]
          exact wfDict_setEntry hwf term
            (wfFieldData_setEntry_postings hd.2 fieldId
              (wfPostings_setEntry_pos hfi documentId (Nat.succ_pos _)))

/-- `removeTerm` preserves well-formedness of the dictionary. -/
theorem removeTerm_WF {dict : TermDict} (hwf : WFDict dict)
    (fieldId documentId : Nat) (term : String) :
    WFDict (removeTerm dict fieldId documentId term).1 := by
  cases hget : getEntry dict term with
  | none => rw [removeTerm_eq_absent hget]; exact hwf
  | some data =>
      have hd := wfFieldData_of_get hwf hget
      cases hgf : getEntry data fieldId with
      | none => rw [removeTerm_eq_field_missing hget hd.1 hgf]; exact hwf
      | some fi =>
          have hfi := wfPostings_of_get hd.2 hgf
          cases hgd : getEntry fi documentId with
          | none => rw [removeTerm_eq_doc_missing hget hd.1 hgf hgd]; exact hwf
          | some amount =>
              by_cases h1 : amount ≤ 1
              · by_cases hsmall : fi.length ≤ 1
                · rw [removeTerm_eq_del_field hget hgf hgd h1 hsmall]
                  by_cases hz : (delEntry data fieldId).length = 0
                  · rw [if_pos hz]
                    exact wfDict_delEntry_setEntry hwf term _
                  · rw [if_neg hz]
                    refine wfDict_setEntry hwf term
                      ⟨fun h => hz (by rw [h]; rfl),
                        nodupKeys_delEntry hd.2.1 fieldId, fun q hq => ?_⟩
                    exact hd.2.2 q (mem_delEntry hq).1
                · rw [removeTerm_eq_del_doc hget hgf hgd h1 hsmall]
                  have hlen := length_delEntry hfi.2.1 hgd
                  refine wfDict_setEntry hwf term
                    (wfFieldData_setEntry_postings hd.2 fieldId
                      ⟨?_, nodupKeys_delEntry hfi.2.1 documentId, fun r hr => ?_⟩)
                  · intro h
                    rw [h] at hlen
                    simp only [List.length_nil, Nat.zero_add] at hlen
                    omega
                  · exact hfi.2.2 r (mem_delEntry hr).1
              · rw [removeTerm_eq_dec hget hgf hgd h1]
                refine wfDict_setEntry hwf term
                  (wfFieldData_setEntry_postings hd.2 fieldId
                    (wfPostings_setEntry_pos hfi documentId (by omega)))

/-- Every reachable dictionary is well-formed. -/
theorem reachable_WF {dict : TermDict} (h : Reachable dict) : WFDict dict := by
  induction h with
  | empty => exact ⟨List.nodup_nil, by simp⟩
  | add dict fieldId documentId term _ ih => exact addTerm_WF ih fieldId documentId term
  | remove dict fieldId documentId term _ ih => exact removeTerm_WF ih fieldId documentId term

/-- `removeTerm` exactly undoes an `addTerm` of the same
`(fieldId, documentId, term)` triple on a well-formed dictionary. -/
theorem removeTerm_addTerm {dict : TermDict} (hwf : WFDict dict)
    (fieldId documentId : Nat) (term : String) :
    (removeTerm (addTerm dict fieldId documentId term) fieldId documentId term).1 = dict := by
  cases hget : getEntry dict term with
  | none =>
      rw [addTerm_eq_new_term hget]
      have hget1 : getEntry (setEntry dict term [(fieldId, [(documentId, 1)])]) term =
          some [(fieldId, [(documentId, 1)])] := getEntry_setEntry_self _ _ _
      have hgf1 : getEntry [(fieldId, [(documentId, 1)])] fieldId =
          some [(documentId, 1)] := by simp [getEntry]
      have hgd1 : getEntry [(documentId, 1)] documentId = some 1 := by simp [getEntry]
      rw [removeTerm_eq_del_field hget1 hgf1 hgd1 le_rfl (by simp)]
      have hdel : delEntry [(fieldId, [(documentId, 1)])] fieldId = [] := by
        simp [delEntry]
      rw [hdel]
      simp only [List.length_nil, if_pos rfl]
      rw [delEntry_setEntry, delEntry_setEntry]
      exact delEntry_of_not_mem (getEntry_eq_none_iff.1 hget)
  | some data =>
      have hd := wfFieldData_of_get hwf hget
      cases hgf : getEntry data fieldId with
      | none =>
          rw [addTerm_eq_new_field hget hgf]
          have hget1 : getEntry (setEntry dict term (setEntry data fieldId [(documentId, 1)]))
              term = some (setEntry data fieldId [(documentId, 1)]) :=
            getEntry_setEntry_self _ _ _
          have hgf1 : getEntry (setEntry data fieldId [(documentId, 1)]) fieldId =
              some [(documentId, 1)] := getEntry_setEntry_self _ _ _
          have hgd1 : getEntry [(documentId, 1)] documentId = some 1 := by simp [getEntry]
          rw [removeTerm_eq_del_field hget1 hgf1 hgd1 le_rfl (by simp)]
          have hdel : delEntry (setEntry data fieldId [(documentId, 1)]) fieldId = data := by
            rw [delEntry_setEntry]
            exact delEntry_of_not_mem (getEntry_eq_none_iff.1 hgf)
          rw [hdel]
          have hlen : ¬ data.length = 0 := fun h => hd.1 (List.length_eq_zero.1 h)
          rw [if_neg hlen]
          rw [setEntry_setEntry]
          exact setEntry_getEntry_self dict term data hget
      | some fi =>
          have hfi := wfPostings_of_get hd.2 hgf
          cases hgd : getEntry fi documentId with
          | none =>
              rw [addTerm_eq_bump hget hgf]
              rw [hgd]
              simp only [Option.getD_none, Nat.zero_add]
              have hget1 : getEntry
                  (setEntry dict term (setEntry data fieldId (setEntry fi documentId 1)))
                  term = some (setEntry data fieldId (setEntry fi documentId 1)) :=
                getEntry_setEntry_self _ _ _
              have hgf1 : getEntry (setEntry data fieldId (setEntry fi documentId 1))
                  fieldId = some (setEntry fi documentId 1) := getEntry_setEntry_self _ _ _
              have hgd1 : getEntry (setEntry fi documentId 1) documentId = some 1 :=
                getEntry_setEntry_self _ _ _
              have hbig : ¬ (setEntry fi documentId 1).length ≤ 1 := by
                rw [length_setEntry_not_mem hgd 1]
                have : fi.length ≠ 0 := fun h => hfi.1 (List.length_eq_zero.1 h)
                omega
              rw [removeTerm_eq_del_doc hget1 hgf1 hgd1 le_rfl hbig]
              have hdel : delEntry (setEntry fi documentId 1) documentId = fi := by
                rw [delEntry_setEntry]
                exact delEntry_of_not_mem (getEntry_eq_none_iff.1 hgd)
              simp only [hdel, setEntry_setEntry]
              rw [setEntry_getEntry_self data fieldId fi hgf]
              exact setEntry_getEntry_self dict term data hget
          | some amount =>
              have hpos : 0 < amount := hfi.2.2 (documentId, amount) (mem_of_getEntry hgd)
              rw [addTerm_eq_bump hget hgf]
              rw [hgd]
              simp only [Option.getD_some]
              have hget1 : getEntry
                  (setEntry dict term
                    (setEntry data fieldId (setEntry fi documentId (amount + 1))))
                  term = some (setEntry data fieldId (setEntry fi documentId (amount + 1))) :=
                getEntry_setEntry_self _ _ _
              have hgf1 : getEntry (setEntry data fieldId (setEntry fi documentId (amount + 1)))
                  fieldId = some (setEntry fi documentId (amount + 1)) :=
                getEntry_setEntry_self _ _ _
              have hgd1 : getEntry (setEntry fi documentId (amount + 1)) documentId =
                  some (amount + 1) := getEntry_setEntry_self _ _ _
              rw [removeTerm_eq_dec hget1 hgf1 hgd1 (by omega)]
              simp only [Nat.add_sub_cancel, setEntry_setEntry]
              rw [setEntry_getEntry_self fi documentId amount hgd]
              rw [setEntry_getEntry_self data fieldId fi hgf]
              exact setEntry_getEntry_self dict term data hget

theorem exists_layers_of_freq_pos {dict : TermDict} {term : String}
    {fieldId documentId : Nat} (h : 0 < freqLookup dict term fieldId documentId) :
    ∃ data fi c, getEntry dict term = some data ∧ getEntry data fieldId = some fi ∧
      getEntry fi documentId = some c ∧ freqLookup dict term fieldId documentId = c := by
  cases hget : getEntry dict term with
  | none => simp [freqLookup, hget] at h
  | some data =>
      cases hgf : getEntry data fieldId with
      | none => simp [freqLookup, hget, hgf] at h
      | some fi =>
          cases hgd : getEntry fi documentId with
          | none => simp [freqLookup, hget, hgf, hgd] at h
          | some c =>
              exact ⟨data, fi, c, rfl, hgf, hgd, by simp [freqLookup, hget, hgf, hgd]⟩

theorem freqLookup_eq_of_layers {dict : TermDict} {term : String} {data : FieldTermData}
    {fieldId : Nat} {fi : DocPostings}
    (hget : getEntry dict term = some data) (hgf : getEntry data fieldId = some fi)
    (d : Nat) : freqLookup dict term fieldId d = (getEntry fi d).getD 0 := by
  simp [freqLookup, hget, hgf]

theorem freqLookup_eq_zero_of_field_none {dict : TermDict} {term : String}
    {data : FieldTermData} {f' : Nat}
    (hget : getEntry dict term = some data) (hgf : getEntry data f' = none) (d' : Nat) :
    freqLookup dict term f' d' = 0 := by
  simp [freqLookup, hget, hgf]

theorem freqLookup_set_inner {dict : TermDict} {term : String} {data : FieldTermData}
    (hget : getEntry dict term = some data) {fieldId : Nat}
    (fi' : DocPostings) (t' : String) (f' d' : Nat) :
    freqLookup (setEntry dict term (setEntry data fieldId fi')) t' f' d' =
      if t' = term ∧ f' = fieldId then (getEntry fi' d').getD 0
      else freqLookup dict t' f' d' := by
  by_cases ht : t' = term
  · subst ht
    by_cases hf : f' = fieldId
    · subst hf
      simp [freqLookup, getEntry_setEntry_self]
    · rw [if_neg (fun hh : _ ∧ _ => hf hh.2)]
      simp only [freqLookup, getEntry_setEntry_self,
        getEntry_setEntry_ne data fieldId f' fi' (fun hh => hf hh.symm), hget]
  · rw [if_neg (fun hh : _ ∧ _ => ht hh.1)]
    simp only [freqLookup, getEntry_setEntry_ne dict term t' _ (fun hh => ht hh.symm)]

theorem freqLookup_del_field {dict : TermDict} {term : String} {data : FieldTermData}
    (hget : getEntry dict term = some data) (fieldId : Nat) (t' : String) (f' d' : Nat) :
    freqLookup (setEntry dict term (delEntry data fieldId)) t' f' d' =
      if t' = term ∧ f' = fieldId then 0
      else freqLookup dict t' f' d' := by
  by_cases ht : t' = term
  · subst ht
    by_cases hf : f' = fieldId
    · subst hf
      simp [freqLookup, getEntry_setEntry_self, getEntry_delEntry_self]
    · rw [if_neg (fun hh : _ ∧ _ => hf hh.2)]
      simp only [freqLookup, getEntry_setEntry_self,
        getEntry_delEntry_ne data fieldId f' (fun hh => hf hh.symm), hget]
  · rw [if_neg (fun hh : _ ∧ _ => ht hh.1)]
    simp only [freqLookup, getEntry_setEntry_ne dict term t' _ (fun hh => ht hh.symm)]

theorem freqLookup_del_term (dict : TermDict) (term : String) (t' : String) (f' d' : Nat) :
    freqLookup (delEntry dict term) t' f' d' =
      if t' = term then 0 else freqLookup dict t' f' d' := by
  by_cases ht : t' = term
  · subst ht
    simp [freqLookup, getEntry_delEntry_self]
  · rw [if_neg ht]
    simp only [freqLookup, getEntry_delEntry_ne dict term t' (fun hh => ht hh.symm)]

/-- When the posting is present, `removeTerm` decrements exactly the
frequency of that `(term, fieldId, documentId)` triple and leaves every
other recorded frequency unchanged. -/
theorem removeTerm_freq {dict : TermDict} {term : String} {fieldId documentId : Nat}
    (h : 0 < freqLookup dict term fieldId documentId) (t' : String) (f' d' : Nat) :
    freqLookup (removeTerm dict fieldId documentId term).1 t' f' d' =
      if t' = term ∧ f' = fieldId ∧ d' = documentId
      then freqLookup dict term fieldId documentId - 1
      else freqLookup dict t' f' d' := by
  obtain ⟨data, fi, c, hget, hgf, hgd, hc⟩ := exists_layers_of_freq_pos h
  have hcpos : 0 < c := hc ▸ h
  rw [hc]
  by_cases h1 : c ≤ 1
  · have hc1 : c = 1 := by omega
    by_cases hsmall : fi.length ≤ 1
    · have hfi : fi = [(documentId, c)] := eq_singleton_of_getEntry hgd hsmall
      have hsingle : ∀ d', d' ≠ documentId → getEntry fi d' = none := by
        intro d' hd'
        have hne : ¬ documentId = d' := fun hh => hd' hh.symm
        rw [hfi]
        simp [getEntry, hne]
      rw [removeTerm_eq_del_field hget hgf hgd h1 hsmall]
      by_cases hz : (delEntry data fieldId).length = 0
      · have hnil : delEntry data fieldId = [] := List.length_eq_zero.1 hz
        rw [if_pos hz]
        simp only [hnil, delEntry_setEntry]
        rw [freqLookup_del_term]
        by_cases ht : t' = term
        · subst ht
          rw [if_pos rfl]
          by_cases hf : f' = fieldId
          · subst hf
            by_cases hd' : d' = documentId
            · rw [if_pos ⟨rfl, rfl, hd'⟩]; omega
            · rw [if_neg (fun hh : _ ∧ _ ∧ _ => hd' hh.2.2)]
              rw [freqLookup_eq_of_layers hget hgf d', hsingle d' hd']
              rfl
          · rw [if_neg (fun hh : _ ∧ _ ∧ _ => hf hh.2.1)]
            have hnone : getEntry data f' = none := by
              have hh := getEntry_delEntry_ne data fieldId f' (fun hh => hf hh.symm)
              rw [hnil] at hh
              simpa using hh.symm
            rw [freqLookup_eq_zero_of_field_none hget hnone d']
        · rw [if_neg ht, if_neg (fun hh : _ ∧ _ ∧ _ => ht hh.1)]
      · rw [if_neg hz]
        rw [freqLookup_del_field hget fieldId]
        by_cases ht : t' = term
        · subst ht
          by_cases hf : f' = fieldId
          · subst hf
            rw [if_pos ⟨rfl, rfl⟩]
            by_cases hd' : d' = documentId
            · rw [if_pos ⟨rfl, rfl, hd'⟩]; omega
            · rw [if_neg (fun hh : _ ∧ _ ∧ _ => hd' hh.2.2)]
              rw [freqLookup_eq_of_layers hget hgf d', hsingle d' hd']
              rfl
          · rw [if_neg (fun hh : _ ∧ _ => hf hh.2),
              if_neg (fun hh : _ ∧ _ ∧ _ => hf hh.2.1)]
        · rw [if_neg (fun hh : _ ∧ _ => ht hh.1),
            if_neg (fun hh : _ ∧ _ ∧ _ => ht hh.1)]
    · rw [removeTerm_eq_del_doc hget hgf hgd h1 hsmall]
      rw [freqLookup_set_inner hget]
      by_cases ht : t' = term
      · subst ht
        by_cases hf : f' = fieldId
        · subst hf
          rw [if_pos ⟨rfl, rfl⟩]
          by_cases hd' : d' = documentId
          · subst hd'
            rw [if_pos ⟨rfl, rfl, rfl⟩, getEntry_delEntry_self]
            simp only [Option.getD_none]
            omega
          · rw [if_neg (fun hh : _ ∧ _ ∧ _ => hd' hh.2.2)]
            rw [getEntry_delEntry_ne fi documentId d' (fun hh => hd' hh.symm)]
            rw [freqLookup_eq_of_layers hget hgf d']
        · rw [if_neg (fun hh : _ ∧ _ => hf hh.2),
            if_neg (fun hh : _ ∧ _ ∧ _ => hf hh.2.1)]
      · rw [if_neg (fun hh : _ ∧ _ => ht hh.1),
          if_neg (fun hh : _ ∧ _ ∧ _ => ht hh.1)]
  · rw [removeTerm_eq_dec hget hgf hgd h1]
    rw [freqLookup_set_inner hget]
    by_cases ht : t' = term
    · subst ht
      by_cases hf : f' = fieldId
      · subst hf
        rw [if_pos ⟨rfl, rfl⟩]
        by_cases hd' : d' = documentId
        · subst hd'
          rw [if_pos ⟨rfl, rfl, rfl⟩, getEntry_setEntry_self]
          rfl
        · rw [if_neg (fun hh : _ ∧ _ ∧ _ => hd' hh.2.2)]
          rw [getEntry_setEntry_ne fi documentId d' _ (fun hh => hd' hh.symm)]
          rw [freqLookup_eq_of_layers hget hgf d']
      · rw [if_neg (fun hh : _ ∧ _ => hf hh.2),
          if_neg (fun hh : _ ∧ _ ∧ _ => hf hh.2.1)]
    · rw [if_neg (fun hh : _ ∧ _ => ht hh.1),
        if_neg (fun hh : _ ∧ _ ∧ _ => ht hh.1)]

/-- On a well-formed dictionary, a term is present exactly when some
positive frequency is recorded under it. -/
theorem hasEntry_iff_freq_pos {dict : TermDict} (hwf : WFDict dict) (t : String) :
    hasEntry dict t = true ↔ ∃ f d, 0 < freqLookup dict t f d := by
  constructor
  · intro h
    obtain ⟨data, hget⟩ : ∃ data, getEntry dict t = some data := by
      cases hg : getEntry dict t with
      | none => simp [hasEntry, hg] at h
      | some data => exact ⟨data, rfl⟩
    have hd := wfFieldData_of_get hwf hget
    obtain ⟨q, hq⟩ := List.exists_mem_of_ne_nil _ hd.1
    have hgf : getEntry data q.1 = some q.2 := getEntry_of_mem_nodup hd.2.1 (by simpa using hq)
    have hfi := hd.2.2 q hq
    obtain ⟨r, hr⟩ := List.exists_mem_of_ne_nil _ hfi.1
    have hgd : getEntry q.2 r.1 = some r.2 := getEntry_of_mem_nodup hfi.2.1 (by simpa using hr)
    refine ⟨q.1, r.1, ?_⟩
    rw [freqLookup_eq_of_layers hget hgf, hgd]
    exact hfi.2.2 r hr
  · rintro ⟨f, d, hpos⟩
    obtain ⟨data, fi, c, hget, -, -, -⟩ := exists_layers_of_freq_pos hpos
    simp [hasEntry, hget]

theorem iterRemove_WF {dict : TermDict} (hwf : WFDict dict)
    (fieldId documentId : Nat) (term : String) (n : Nat) :
    WFDict (iterRemove dict fieldId documentId term n) := by
  induction n generalizing dict with
  | zero => exact hwf
  | succ n ih => exact ih (removeTerm_WF hwf fieldId documentId term)

/-- Applying `removeTerm` as many times as the recorded frequency zeroes
exactly that posting and leaves every other frequency unchanged. -/
theorem iterRemove_freq {dict : TermDict} {term : String} {fieldId documentId : Nat}
    {c : Nat} (hc : freqLookup dict term fieldId documentId = c)
    (t' : String) (f' d' : Nat) :
    freqLookup (iterRemove dict fieldId documentId term c) t' f' d' =
      if t' = term ∧ f' = fieldId ∧ d' = documentId then 0
      else freqLookup dict t' f' d' := by
  induction c generalizing dict with
  | zero =>
      by_cases h : t' = term ∧ f' = fieldId ∧ d' = documentId
      · obtain ⟨rfl, rfl, rfl⟩ := h
        rw [if_pos ⟨rfl, rfl, rfl⟩]
        exact hc
      · rw [if_neg h]
        rfl
  | succ n ih =>
      have hpos : 0 < freqLookup dict term fieldId documentId := by omega
      have hstep := removeTerm_freq hpos
      have hstep' : freqLookup (removeTerm dict fieldId documentId term).1
          term fieldId documentId = n := by
        rw [hstep term fieldId documentId, if_pos ⟨rfl, rfl, rfl⟩, hc]
        omega
      rw [iterRemove, ih hstep']
      by_cases h : t' = term ∧ f' = fieldId ∧ d' = documentId
      · rw [if_pos h, if_pos h]
      · rw [if_neg h, if_neg h, hstep t' f' d', if_neg h]

theorem mem_docEntries {dict : TermDict} {d : Nat} {e : String × Nat × Nat} :
    e ∈ docEntries dict d ↔
      ∃ data fi, (e.1, data) ∈ dict ∧ (e.2.1, fi) ∈ data ∧
        getEntry fi d = some e.2.2 := by
  induction dict with
  | nil => simp [docEntries]
  | cons p rest ih =>
      obtain ⟨t, data⟩ := p
      simp only [docEntries, List.mem_append, List.mem_filterMap, ih]
      constructor
      · rintro (⟨q, hq, hsome⟩ | ⟨data', fi, hmem, hfi, hgd⟩)
        · cases hg : getEntry q.2 d with
          | none => rw [hg] at hsome; simp at hsome
          | some c =>
              rw [hg] at hsome
              have hsome' : (t, q.1, c) = e := by simpa using hsome
              refine ⟨data, q.2, ?_, ?_, ?_⟩
              · rw [← hsome']; simp
              · rw [← hsome']; simpa using hq
              · rw [← hsome']; simpa using hg
        · exact ⟨data', fi, List.mem_cons_of_mem _ hmem, hfi, hgd⟩
      · rintro ⟨data', fi, hmem, hfi, hgd⟩
        rcases List.mem_cons.1 hmem with h | h
        · left
          obtain ⟨ht, hd⟩ := Prod.mk.injEq .. ▸ h
          refine ⟨(e.2.1, fi), hd ▸ hfi, ?_⟩
          rw [hgd, ← ht]
          rfl
        · right
          exact ⟨data', fi, h, hfi, hgd⟩

theorem removeDoc_fold_WF (entries : List (String × Nat × Nat)) {dd : TermDict}
    (hwf : WFDict dd) (documentId : Nat) :
    WFDict (entries.foldl
      (fun dd e => iterRemove dd e.2.1 documentId e.1
        (freqLookup dd e.1 e.2.1 documentId)) dd) := by
  induction entries generalizing dd with
  | nil => exact hwf
  | cons e rest ih => exact ih (iterRemove_WF hwf e.2.1 documentId e.1 _)

theorem removeDoc_fold_freq (entries : List (String × Nat × Nat)) (dd : TermDict)
    (documentId : Nat) (t : String) (f d' : Nat) :
    freqLookup (entries.foldl
      (fun dd e => iterRemove dd e.2.1 documentId e.1
        (freqLookup dd e.1 e.2.1 documentId)) dd) t f d' =
      if (∃ e ∈ entries, e.1 = t ∧ e.2.1 = f) ∧ d' = documentId then 0
      else freqLookup dd t f d' := by
  induction entries generalizing dd with
  | nil => simp
  | cons e rest ih =>
      rw [List.foldl_cons, ih]
      have hstep := @iterRemove_freq dd e.1 e.2.1 documentId _ rfl t f d'
      by_cases hrest : (∃ e' ∈ rest, e'.1 = t ∧ e'.2.1 = f) ∧ d' = documentId
      · rw [if_pos hrest]
        obtain ⟨⟨e', he', hp⟩, hd⟩ := hrest
        rw [if_pos ⟨⟨e', List.mem_cons_of_mem _ he', hp⟩, hd⟩]
      · rw [if_neg hrest, hstep]
        by_cases hme : t = e.1 ∧ f = e.2.1 ∧ d' = documentId
        · obtain ⟨h1, h2, h3⟩ := hme
          rw [if_pos ⟨h1, h2, h3⟩]
          rw [if_pos ⟨⟨e, List.mem_cons_self e rest, h1.symm, h2.symm⟩, h3⟩]
        · rw [if_neg hme]
          by_cases hall : (∃ e' ∈ e :: rest, e'.1 = t ∧ e'.2.1 = f) ∧ d' = documentId
          · exfalso
            obtain ⟨⟨e', he', h1, h2⟩, hd⟩ := hall
            rcases List.mem_cons.1 he' with h | h
            · subst h
              exact hme ⟨h1.symm, h2.symm, hd⟩
            · exact hrest ⟨⟨e', h, h1, h2⟩, hd⟩
          · rw [if_neg hall]

/-- C1: for every sequence of `addTerm` and `removeTerm` operations starting
from an empty index, every term present in the term dictionary has at least
one `(fieldId, documentId)` posting under it with a positive integer
frequency — `addTerm` and `removeTerm` each preserve this invariant. -/
theorem C1_term_dictionary_invariant {dict : TermDict} (h : Reachable dict) :
    ∀ p ∈ dict, ∃ q ∈ p.2, ∃ r ∈ q.2, 0 < r.2 := by
  have hwf := reachable_WF h
  intro p hp
  have hd := hwf.2 p hp
  obtain ⟨q, hq⟩ := List.exists_mem_of_ne_nil _ hd.1
  have hfi := hd.2.2 q hq
  obtain ⟨r, hr⟩ := List.exists_mem_of_ne_nil _ hfi.1
  exact ⟨q, hq, r, hr, hfi.2.2 r hr⟩

/-- Witness for C1 at a concrete reachable state. -/
theorem C1_term_dictionary_invariant_witness :
    Reachable (addTerm [] 0 0 "a") ∧
      ∀ p ∈ addTerm [] 0 0 "a", ∃ q ∈ p.2, ∃ r ∈ q.2, 0 < r.2 :=
  ⟨Reachable.add [] 0 0 "a" Reachable.empty,
    C1_term_dictionary_invariant (Reachable.add [] 0 0 "a" Reachable.empty)⟩

/-- C2: on a well-formed index, when the term is absent from the dictionary,
or present without an entry for the given fieldId, or without an entry for
the given documentId under that fieldId, `removeTerm` signals the
DocumentChanged warning through the logger (the `true` component) and
returns with the posting structure unmodified, without throwing. -/
theorem C2_removeTerm_missing_warns {dict : TermDict} (hwf : WFDict dict)
    (fieldId documentId : Nat) (term : String)
    (habs : getEntry dict term = none ∨
      ∃ data, getEntry dict term = some data ∧
        (getEntry data fieldId = none ∨
          ∃ fi, getEntry data fieldId = some fi ∧ getEntry fi documentId = none)) :
    removeTerm dict fieldId documentId term = (dict, true) := by
  rcases habs with hget | ⟨data, hget, hcase⟩
  · exact removeTerm_eq_absent hget fieldId documentId
  · have hd := wfFieldData_of_get hwf hget
    rcases hcase with hgf | ⟨fi, hgf, hgd⟩
    · exact removeTerm_eq_field_missing hget hd.1 hgf documentId
    · exact removeTerm_eq_doc_missing hget hd.1 hgf hgd

/-- Witness for C2: removing a posting under a fieldId never indexed for
the term warns and leaves the index unchanged. -/
theorem C2_removeTerm_missing_warns_witness :
    WFDict (addTerm [] 0 0 "a") ∧
      removeTerm (addTerm [] 0 0 "a") 1 0 "a" = (addTerm [] 0 0 "a", true) :=
  ⟨by decide,
    C2_removeTerm_missing_warns (by decide) 1 0 "a"
      (Or.inr ⟨[(0, [(0, 1)])], by decide, Or.inl (by decide)⟩)⟩

/-- C3: on a well-formed index, removing via `removeTerm` every posting
recorded for a document zeroes exactly that document's postings, leaves
every other document's postings unchanged, keeps a term in the dictionary
exactly when it has a posting from another document (terms exclusive to
the document are deleted entirely), and `removeTerm` right after `addTerm`
of the same `(fieldId, documentId, term)` restores the prior structure. -/
theorem C3_remove_document_postings {dict : TermDict} (hwf : WFDict dict)
    (documentId : Nat) :
    (∀ t f, freqLookup (removeDoc dict documentId) t f documentId = 0) ∧
    (∀ t f d', d' ≠ documentId →
      freqLookup (removeDoc dict documentId) t f d' = freqLookup dict t f d') ∧
    (∀ t, hasEntry (removeDoc dict documentId) t = true ↔
      ∃ f d', d' ≠ documentId ∧ 0 < freqLookup dict t f d') ∧
    (∀ f d t, (removeTerm (addTerm dict f d t) f d t).1 = dict) := by
  have hzero : ∀ t f, freqLookup (removeDoc dict documentId) t f documentId = 0 := by
    intro t f
    rw [removeDoc, removeDoc_fold_freq]
    by_cases hc : ∃ e ∈ docEntries dict documentId, e.1 = t ∧ e.2.1 = f
    · rw [if_pos ⟨hc, rfl⟩]
    · rw [if_neg (fun hh => hc hh.1)]
      by_contra hne
      have hpos : 0 < freqLookup dict t f documentId := Nat.pos_of_ne_zero hne
      obtain ⟨data, fi, c, hget, hgf, hgd, -⟩ := exists_layers_of_freq_pos hpos
      exact hc ⟨(t, f, c),
        mem_docEntries.2 ⟨data, fi, mem_of_getEntry hget, mem_of_getEntry hgf, hgd⟩,
        rfl, rfl⟩
  have hkeep : ∀ t f d', d' ≠ documentId →
      freqLookup (removeDoc dict documentId) t f d' = freqLookup dict t f d' := by
    intro t f d' hne
    rw [removeDoc, removeDoc_fold_freq, if_neg (fun hh => hne hh.2)]
  have hWFR : WFDict (removeDoc dict documentId) :=
    removeDoc_fold_WF (docEntries dict documentId) hwf documentId
  refine ⟨hzero, hkeep, fun t => ?_, fun f d t => removeTerm_addTerm hwf f d t⟩
  rw [hasEntry_iff_freq_pos hWFR t]
  constructor
  · rintro ⟨f, d', hpos⟩
    by_cases hd' : d' = documentId
    · rw [hd', hzero t f] at hpos
      exact absurd hpos (by simp)
    · rw [hkeep t f d' hd'] at hpos
      exact ⟨f, d', hd', hpos⟩
  · rintro ⟨f, d', hd', hpos⟩
    exact ⟨f, d', by rw [hkeep t f d' hd']; exact hpos⟩

/-- Witness for C3 at a concrete two-document index. -/
theorem C3_remove_document_postings_witness :
    WFDict (addTerm (addTerm [] 0 1 "a") 0 2 "a") ∧
      ((∀ t f, freqLookup (removeDoc (addTerm (addTerm [] 0 1 "a") 0 2 "a") 1) t f 1 = 0) ∧
      (∀ t f d', d' ≠ 1 →
        freqLookup (removeDoc (addTerm (addTerm [] 0 1 "a") 0 2 "a") 1) t f d' =
          freqLookup (addTerm (addTerm [] 0 1 "a") 0 2 "a") t f d') ∧
      (∀ t, hasEntry (removeDoc (addTerm (addTerm [] 0 1 "a") 0 2 "a") 1) t = true ↔
        ∃ f d', d' ≠ 1 ∧ 0 < freqLookup (addTerm (addTerm [] 0 1 "a") 0 2 "a") t f d') ∧
      (∀ f d t,
        (removeTerm (addTerm (addTerm (addTerm [] 0 1 "a") 0 2 "a") f d t) f d t).1 =
          addTerm (addTerm [] 0 1 "a") 0 2 "a")) :=
  ⟨by decide, C3_remove_document_postings (by decide) 1⟩

theorem mem_search {view : SearchView} {combined : List (Nat × RawResult)}
    {opts : CallOptions} {res : SearchResult} (h : res ∈ search view combined opts) :
    ∃ p ∈ combined, res = buildResult view p := by
  rw [search, List.mem_insertionSort] at h
  obtain ⟨p, hp, hsome⟩ := List.mem_filterMap.1 h
  refine ⟨p, hp, ?_⟩
  cases hflt : opts.filter with
  | none =>
      rw [hflt] at hsome
      exact (Option.some.inj hsome).symm
  | some flt =>
      rw [hflt] at hsome
      by_cases hok : flt (buildResult view p) = true
      · simp only [hok, if_true, Option.some.injEq] at hsome
        exact hsome.symm
      · simp [hok] at hsome

/-- C4: every document in the combined results that reaches the output
carries a final score equal to its accumulated score multiplied by the
number of distinct query terms it matched (the `terms` lists carried by
the query engine hold each matched query term once). -/
theorem C4_final_score_quality (view : SearchView) (combined : List (Nat × RawResult))
    (opts : CallOptions) (hnd : ∀ p ∈ combined, p.2.terms.Nodup) :
    ∀ res ∈ search view combined opts, ∃ p ∈ combined,
      res.shortId = p.1 ∧ res.score = p.2.score * (p.2.terms.dedup.length : ℚ) := by
  intro res hres
  obtain ⟨p, hp, hbuild⟩ := mem_search hres
  refine ⟨p, hp, ?_, ?_⟩
  · rw [hbuild]; rfl
  · rw [hbuild, (hnd p hp).dedup]
    rfl

/-- Witness for C4 on a one-document combined result. -/
theorem C4_final_score_quality_witness :
    (∀ p ∈ [((1 : Nat), (⟨3 / 2, ["x", "y"], [("x", ["title"])]⟩ : RawResult))],
        p.2.terms.Nodup) ∧
      ∀ res ∈ search ⟨[], [], none⟩
          [((1 : Nat), (⟨3 / 2, ["x", "y"], [("x", ["title"])]⟩ : RawResult))] ⟨none⟩,
        ∃ p ∈ [((1 : Nat), (⟨3 / 2, ["x", "y"], [("x", ["title"])]⟩ : RawResult))],
          res.shortId = p.1 ∧ res.score = p.2.score * (p.2.terms.dedup.length : ℚ) :=
  ⟨by decide,
    C4_final_score_quality ⟨[], [], none⟩
      [((1 : Nat), (⟨3 / 2, ["x", "y"], [("x", ["title"])]⟩ : RawResult))] ⟨none⟩
      (by decide)⟩

/-- C5: the result list of every search call is sorted by descending
score with ties ordered by ascending shortId; consequently every earlier
hit scores at least as high as every later one. -/
theorem C5_results_sorted (view : SearchView) (combined : List (Nat × RawResult))
    (opts : CallOptions) :
    List.Sorted byScore (search view combined opts) ∧
      List.Pairwise (fun a b : SearchResult => b.score ≤ a.score)
        (search view combined opts) := by
  have hsorted : List.Sorted byScore (search view combined opts) :=
    List.sorted_insertionSort byScore _
  refine ⟨hsorted, hsorted.imp ?_⟩
  rintro a b (h | ⟨h, -⟩)
  · exact le_of_lt h
  · exact le_of_eq h.symm

/-- C10: `search` consults only the filter supplied with the call; when
the call passes no filter, no result is dropped — whatever filter was
configured as the constructor's `searchOptions` default — and the output
does not depend on that configured default at all. -/
theorem C10_call_filter_only (documentIds : List (Nat × Nat))
    (storedFields : List (Nat × List (String × String)))
    (df df' : Option (SearchResult → Bool)) (combined : List (Nat × RawResult))
    (opts : CallOptions) (h : opts.filter = none) :
    (search ⟨documentIds, storedFields, df⟩ combined opts).length = combined.length ∧
      search ⟨documentIds, storedFields, df⟩ combined opts =
        search ⟨documentIds, storedFields, df'⟩ combined opts := by
  constructor
  · rw [search, List.length_insertionSort]
    induction combined with
    | nil => rfl
    | cons p rest ih => simp only [List.filterMap_cons, h] at ih ⊢; simp [ih]
  · rfl

/-- Witness for C10: even with a constructor-default filter that rejects
everything, a call without a filter keeps every result. -/
theorem C10_call_filter_only_witness :
    (⟨none⟩ : CallOptions).filter = none ∧
      ((search ⟨[], [], some fun _ => false⟩
          [((0 : Nat), (⟨1, ["q"], []⟩ : RawResult))] ⟨none⟩).length = 1 ∧
        search ⟨[], [], some fun _ => false⟩
            [((0 : Nat), (⟨1, ["q"], []⟩ : RawResult))] ⟨none⟩ =
          search ⟨[], [], none⟩
            [((0 : Nat), (⟨1, ["q"], []⟩ : RawResult))] ⟨none⟩) :=
  ⟨rfl,
    C10_call_filter_only [] [] (some fun _ => false) none
      [((0 : Nat), (⟨1, ["q"], []⟩ : RawResult))] ⟨none⟩ rfl⟩

theorem toJSON_index_eq (s : SearchIndexState) : (toJSON s).index = s.index := by
  simp [toJSON]

/-- C6: `toJSON` returns a record with exactly the fields
`documentCount`, `nextId`, `documentIds`, `fieldIds`, `fieldLength`,
`averageFieldLength`, `storedFields`, `dirtCount`, `index` and
`version` (the fields of `IndexObject`), with `version = 2`, each state
field serialized as-is, and `index` listing one entry per dictionary
term, in dictionary order, carrying the exact per-field per-document
frequencies. -/
theorem C6_toJSON_format (s : SearchIndexState) :
    (toJSON s).version = 2 ∧
    (toJSON s).documentCount = s.documentCount ∧
    (toJSON s).nextId = s.nextId ∧
    (toJSON s).documentIds = s.documentIds ∧
    (toJSON s).fieldIds = s.fieldIds ∧
    (toJSON s).fieldLength = s.fieldLength ∧
    (toJSON s).averageFieldLength = s.avgFieldLength ∧
    (toJSON s).storedFields = s.storedFields ∧
    (toJSON s).dirtCount = s.dirtCount ∧
    (toJSON s).index.map Prod.fst = s.index.map Prod.fst ∧
    (toJSON s).index.length = s.index.length ∧
    ∀ t f d, serializedFreq (toJSON s) t f d = freqLookup s.index t f d := by
  have hidx := toJSON_index_eq s
  exact ⟨rfl, rfl, rfl, rfl, rfl, rfl, rfl, rfl, rfl,
    by rw [hidx], by rw [hidx], fun t f d => by rw [serializedFreq, hidx]⟩

/-- C7: serializing with `toJSON` and loading the result back (same
options) restores the exact index state, so every fixed query and
search options produce identical search results on the loaded index. -/
theorem C7_toJSON_loadJSON_roundtrip (s : SearchIndexState) :
    loadJSON (toJSON s) = some s ∧
      ∀ df combined opts,
        searchLoaded (loadJSON (toJSON s)) df combined opts =
          searchState s df combined opts := by
  have h1 : loadJSON (toJSON s) = some s := by
    have hv : (toJSON s).version = 2 := rfl
    rw [loadJSON, if_pos hv, toJSON_index_eq]
    rfl
  exact ⟨h1, fun df combined opts => by rw [h1]; rfl⟩

/-- C8 counterexample: constructing with `fields` present but negative
BM25 parameters does not throw — the constructor validates only
`fields`, so construction succeeds and a state is created. -/
theorem C8_counterexample_negative_bm25_accepted :
    createIndex { fields := some ["title"], bm25 := some ⟨-1, -1, -1⟩ } =
      Except.ok
        { index := []
          documentCount := 0
          nextId := 0
          documentIds := []
          fieldIds := [("title", 0)]
          fieldLength := []
          avgFieldLength := []
          storedFields := []
          dirtCount := 0 } := by
  rfl

/-- C8 as amended: constructing without the `fields` option throws a
synchronous exception whose message carries the literal prefix
"SlimSearch: " and no index state is created; negative BM25 parameters
are not validated at construction and do not throw. -/
theorem C8_missing_fields_throws (opts : CreateOptions) (h : opts.fields = none) :
    ∃ msg, createIndex opts = Except.error msg ∧
      "SlimSearch: ".data.isPrefixOf msg.data = true := by
  refine ⟨"SlimSearch: option \"fields\" must be provided", ?_, by decide⟩
  rw [createIndex, h]

/-- Witness for the amended C8 at a concrete option record. -/
theorem C8_missing_fields_throws_witness :
    ({ fields := none, bm25 := some ⟨1, 1, 1⟩ } : CreateOptions).fields = none ∧
      ∃ msg, createIndex { fields := none, bm25 := some ⟨1, 1, 1⟩ } =
          Except.error msg ∧ "SlimSearch: ".data.isPrefixOf msg.data = true :=
  ⟨rfl, C8_missing_fields_throws { fields := none, bm25 := some ⟨1, 1, 1⟩ } rfl⟩

/-- C9: `dirtFactor` returns exactly
`dirtCount / (1 + documentCount + dirtCount)`; the denominator is at
least 1 (so the division is defined) and the value lies in `[0, 1)`. -/
theorem C9_dirtFactor_bounds (s : SearchIndexState) :
    dirtFactor s =
        (s.dirtCount : ℚ) / (1 + (s.documentCount : ℚ) + (s.dirtCount : ℚ)) ∧
      1 ≤ 1 + (s.documentCount : ℚ) + (s.dirtCount : ℚ) ∧
      0 ≤ dirtFactor s ∧ dirtFactor s < 1 := by
  have hn : (0 : ℚ) ≤ (s.documentCount : ℚ) := Nat.cast_nonneg _
  have hd : (0 : ℚ) ≤ (s.dirtCount : ℚ) := Nat.cast_nonneg _
  have hden : (0 : ℚ) < 1 + (s.documentCount : ℚ) + (s.dirtCount : ℚ) := by linarith
  refine ⟨rfl, by linarith, div_nonneg hd (le_of_lt hden), ?_⟩
  rw [dirtFactor, div_lt_one hden]
  linarith

end SlimSearch
